import Mathlib

/-!
# Verification of the kaudocore dual text-storage engine

Shallow embedding of the piece-table (`piece.rs`, `descriptor.rs`, `buffer.rs`),
the rope (`chunk.rs`, `node.rs`, `iterator.rs`) and the line-ending collaborator
(`line_ending.rs`) of the kaudocore repository, together with theorems settling
the specification claims about them.

Conventions:
* Rust `usize` values are modelled as `Nat`; `usize` subtraction only occurs
  where the source guards it (or where Rust itself saturates, as in
  `Range::len` and `saturating_sub`), so Nat subtraction is faithful.
* Rust `String`/`&str` is modelled as `List Char` (a sequence of Unicode scalar
  values, hence always valid UTF-8); byte positions are recovered through
  `Char.utf8Size`.
* Fallible operations return `Option`/`Except`; a Rust panic (assertion or
  out-of-boundary `str::split_at`) is modelled as a distinguished error value.
-/

set_option maxRecDepth 10000

namespace Kaudo

/-! ## Byte-level view of strings

Rust strings are UTF-8 byte buffers; `kaudocore` indexes them by byte offset.
`byteLen`, `isCharBoundary`, `takeBytes` and `dropBytes` recover that view on
`List Char`, mirroring `str::len`, `str::is_char_boundary` and byte-range
slicing `&s[a..b]` (which the source only performs on checked boundaries). -/

/-- Byte length of a string, as Rust `str::len`. -/
def byteLen (s : List Char) : Nat :=
  (s.map Char.utf8Size).sum

/-- Rust `str::is_char_boundary i`: true iff `i` is 0, the total byte length,
or the byte offset of the start of a character; false beyond the end. -/
def isCharBoundary : List Char → Nat → Bool
  | [], i => i == 0
  | c :: cs, i => if i == 0 then true else
      if i < c.utf8Size then false else isCharBoundary cs (i - c.utf8Size)

/-- The characters of the byte prefix `[0, i)`; exact when `i` is a character
boundary (the only way the source uses it). -/
def takeBytes : List Char → Nat → List Char
  | _, 0 => []
  | [], _ => []
  | c :: cs, i => if i < c.utf8Size then [] else c :: takeBytes cs (i - c.utf8Size)

/-- The characters of the byte suffix `[i, len)`; exact when `i` is a character
boundary (the only way the source uses it). -/
def dropBytes : List Char → Nat → List Char
  | s, 0 => s
  | [], _ => []
  | c :: cs, i => if i < c.utf8Size then cs else dropBytes cs (i - c.utf8Size)

/-! ## Piece (`piece_table/piece.rs`)

`Piece { buffer_id: usize, range: Range<usize> }`.  `Range<usize>` is the pair
of its endpoints; `Range::len` in Rust is `end - start` saturating at 0, which
is exactly Nat subtraction. -/

structure Piece where
  buffer_id : Nat
  range_start : Nat
  range_end : Nat
deriving DecidableEq

/-- `Piece::len`, via Rust `Range::len` (0 when `start > end`). -/
def Piece.len (p : Piece) : Nat :=
  p.range_end - p.range_start

/-- `Piece::is_empty`, via Rust `Range::is_empty`. -/
def Piece.is_empty (p : Piece) : Bool :=
  decide (¬ p.range_start < p.range_end)

/-- `Piece::contains`, via Rust `Range::contains`. -/
def Piece.contains (p : Piece) (index : Nat) : Bool :=
  decide (p.range_start ≤ index ∧ index < p.range_end)

/-- `Piece::can_merge`: same source buffer and contiguous ranges in either
order. -/
def Piece.can_merge (p other : Piece) : Bool :=
  p.buffer_id == other.buffer_id &&
    (p.range_end == other.range_start || other.range_end == p.range_start)

/-- `Piece::merge`: `None` unless `can_merge`; otherwise the union range. -/
def Piece.merge (p other : Piece) : Option Piece :=
  if p.can_merge other then
    some ⟨p.buffer_id, min p.range_start other.range_start,
          max p.range_end other.range_end⟩
  else none

/-- `Piece::split_at`: the source asserts `index <= self.len()` and aborts on
violation; the abort is modelled as `none`. -/
def Piece.split_at (p : Piece) (index : Nat) : Option (Piece × Piece) :=
  if index ≤ p.len then
    some (⟨p.buffer_id, p.range_start, p.range_start + index⟩,
          ⟨p.buffer_id, p.range_start + index, p.range_end⟩)
  else none

/-! ## PieceDescriptor (`piece_table/descriptor.rs`) -/

structure PieceDescriptor where
  piece : Piece
  global_start : Nat
deriving DecidableEq

/-- `PieceDescriptor::len`. -/
def PieceDescriptor.len (d : PieceDescriptor) : Nat :=
  d.piece.len

/-- `PieceDescriptor::global_end`. -/
def PieceDescriptor.global_end (d : PieceDescriptor) : Nat :=
  d.global_start + d.len

/-- `PieceDescriptor::local_start`. -/
def PieceDescriptor.local_start (d : PieceDescriptor) : Nat :=
  d.piece.range_start

/-- `PieceDescriptor::contains_global`. -/
def PieceDescriptor.contains_global (d : PieceDescriptor) (index : Nat) : Bool :=
  decide (d.global_start ≤ index ∧ index < d.global_end)

/-- `PieceDescriptor::global_to_local`. -/
def PieceDescriptor.global_to_local (d : PieceDescriptor) (global_index : Nat) :
    Option Nat :=
  if d.contains_global global_index then
    some (d.local_start + (global_index - d.global_start))
  else none

/-- `PieceDescriptor::local_to_global`. -/
def PieceDescriptor.local_to_global (d : PieceDescriptor) (local_index : Nat) :
    Option Nat :=
  if d.piece.contains local_index then
    some (d.global_start + (local_index - d.local_start))
  else none

/-! ## Piece-table Buffer (`piece_table/buffer.rs`)

`Buffer { pieces: Vec<Arc<Piece>>, total_length: usize }`.  `Arc` sharing is
irrelevant to the values stored, so pieces are held directly.  Methods that
mutate `&mut self` are modelled as functions returning the new buffer;
fallible ones return `Option` (with `none` meaning the error return, which
leaves the receiver untouched). -/

structure Buffer where
  pieces : List Piece
  total_length : Nat
deriving DecidableEq

/-- Sum of the stored pieces' lengths: the "true" total the cache must equal. -/
def sumLens (l : List Piece) : Nat :=
  (l.map Piece.len).sum

/-- `Buffer::new`. -/
def Buffer.new : Buffer := ⟨[], 0⟩

/-- `Buffer::add_piece`. -/
def Buffer.add_piece (b : Buffer) (p : Piece) : Buffer :=
  ⟨b.pieces ++ [p], b.total_length + p.len⟩

/-- `Buffer::insert_piece`: index beyond the piece count is an error, returned
before any mutation.  `Vec::insert` at a checked index is take/drop splicing. -/
def Buffer.insert_piece (b : Buffer) (index : Nat) (p : Piece) : Option Buffer :=
  if b.pieces.length < index then none
  else some ⟨b.pieces.take index ++ p :: b.pieces.drop index,
             b.total_length + p.len⟩

/-- `Buffer::extend_pieces`: pushes each piece, accumulating lengths. -/
def Buffer.extend_pieces (b : Buffer) (ps : List Piece) : Buffer :=
  ps.foldl Buffer.add_piece b

/-- `Buffer::clear`. -/
def Buffer.clear (_ : Buffer) : Buffer := ⟨[], 0⟩

/-- `Buffer::remove_piece`: `None` when the index is out of bounds (receiver
untouched); otherwise the removed piece and the shrunk buffer. -/
def Buffer.remove_piece (b : Buffer) (index : Nat) : Option (Piece × Buffer) :=
  if b.pieces.length ≤ index then none
  else
    let removed := b.pieces.getD index ⟨0, 0, 0⟩
    some (removed, ⟨b.pieces.take index ++ b.pieces.drop (index + 1),
                    b.total_length - removed.len⟩)

/-- `Buffer::swap_pieces`: error on either index out of bounds, otherwise the
two slots exchanged (`Vec::swap`). -/
def Buffer.swap_pieces (b : Buffer) (a c : Nat) : Option Buffer :=
  if b.pieces.length ≤ a ∨ b.pieces.length ≤ c then none
  else
    let pa := b.pieces.getD a ⟨0, 0, 0⟩
    let pc := b.pieces.getD c ⟨0, 0, 0⟩
    some ⟨(b.pieces.set a pc).set c pa, b.total_length⟩

/-- `Buffer::truncate_pieces`: drops the tail beyond `len` and subtracts its
summed length; no-op when `len` is not smaller than the piece count. -/
def Buffer.truncate_pieces (b : Buffer) (len : Nat) : Buffer :=
  if len < b.pieces.length then
    ⟨b.pieces.take len, b.total_length - sumLens (b.pieces.drop len)⟩
  else b

/-- The piece-list operations of claim C8, as an operation language. -/
inductive BufOp where
  | add (p : Piece)
  | insert (index : Nat) (p : Piece)
  | extendPieces (ps : List Piece)
  | remove (index : Nat)
  | swap (a c : Nat)
  | truncate (len : Nat)
  | clear
deriving DecidableEq

/-- One operation applied to a buffer; a failing call leaves the buffer
exactly as before (as the source does: bounds are checked before mutation). -/
def Buffer.step (b : Buffer) : BufOp → Buffer
  | .add p => b.add_piece p
  | .insert i p => (b.insert_piece i p).getD b
  | .extendPieces ps => b.extend_pieces ps
  | .remove i => ((b.remove_piece i).map Prod.snd).getD b
  | .swap a c => (b.swap_pieces a c).getD b
  | .truncate n => b.truncate_pieces n
  | .clear => b.clear

/-- The cached-length invariant of the piece-table buffer. -/
def BufferInv (b : Buffer) : Prop :=
  b.total_length = sumLens b.pieces

instance (b : Buffer) : Decidable (BufferInv b) := by
  unfold BufferInv
  infer_instance

/-! ## Chunk (`rope/chunk.rs`)

`Chunk { text: String, line_endings: Vec<usize> }`; the cache holds the byte
offsets of every `'\n'` (`text.match_indices('\n')`).  All slicing operations
validate bounds and UTF-8 boundaries before touching memory and return `None`
on violation; they take `&self` and allocate a fresh chunk, so the receiver is
never mutated, and the result is built from whole characters, hence always
valid UTF-8. -/

/-- Byte offsets of `'\n'` starting from byte offset `off`
(`str::match_indices('\n')`). -/
def nlOffsets : List Char → Nat → List Nat
  | [], _ => []
  | c :: cs, off =>
      if c == '\n' then off :: nlOffsets cs (off + c.utf8Size)
      else nlOffsets cs (off + c.utf8Size)

structure Chunk where
  text : List Char
  line_offsets : List Nat
deriving DecidableEq

/-- `Chunk::new`. -/
def Chunk.new (text : List Char) : Chunk :=
  ⟨text, nlOffsets text 0⟩

/-- `Chunk::len` (byte length). -/
def Chunk.len (c : Chunk) : Nat :=
  byteLen c.text

/-- `Chunk::slice`: `None` on an invalid range or a range endpoint off a UTF-8
character boundary, otherwise the chunk of bytes `[start, end)`. -/
def Chunk.slice (c : Chunk) (rs re : Nat) : Option Chunk :=
  if rs > re ∨ re > c.len then none
  else if ¬ isCharBoundary c.text rs ∨ ¬ isCharBoundary c.text re then none
  else some (Chunk.new (takeBytes (dropBytes c.text rs) (re - rs)))

/-- `Chunk::split_at`: `None` when the index is past the end or off a
character boundary. -/
def Chunk.split_at (c : Chunk) (index : Nat) : Option (Chunk × Chunk) :=
  if index > c.len ∨ ¬ isCharBoundary c.text index then none
  else some (Chunk.new (takeBytes c.text index),
             Chunk.new (dropBytes c.text index))

/-- `Chunk::insert`: insert one character at byte index `idx`. -/
def Chunk.insert (c : Chunk) (idx : Nat) (ch : Char) : Option Chunk :=
  if idx > c.len ∨ ¬ isCharBoundary c.text idx then none
  else some (Chunk.new (takeBytes c.text idx ++ ch :: dropBytes c.text idx))

/-- `Chunk::insert_str`: insert a string at byte index `idx`. -/
def Chunk.insert_str (c : Chunk) (idx : Nat) (s : List Char) : Option Chunk :=
  if idx > c.len ∨ ¬ isCharBoundary c.text idx then none
  else some (Chunk.new (takeBytes c.text idx ++ s ++ dropBytes c.text idx))

/-- `Chunk::remove`: remove the character starting at byte index `idx`,
returning the shrunk chunk and the removed character. -/
def Chunk.remove (c : Chunk) (idx : Nat) : Option (Chunk × Char) :=
  if idx ≥ c.len ∨ ¬ isCharBoundary c.text idx then none
  else
    match dropBytes c.text idx with
    | [] => none
    | r :: rest => some (Chunk.new (takeBytes c.text idx ++ rest), r)

/-! ## Line endings (`content/line_ending.rs`) -/

inductive LineEnding where
  | LF
  | CRLF
  | CR
  | NEL
  | LS
  | PS
  | Unknown
deriving DecidableEq

/-- `impl Default for LineEnding`: `CRLF` under `cfg(windows)`, `LF`
otherwise.  The verification targets the non-Windows build. -/
def lineEndingDefault : LineEnding := LineEnding.LF

/-- The six terminator counters accumulated by `LineEnding::detect`. -/
structure LeCounts where
  crlf : Nat
  lf : Nat
  cr : Nat
  nel : Nat
  ls : Nat
  ps : Nat
deriving DecidableEq

/-- The character scan of `LineEnding::detect`: a `"\r\n"` pair is consumed as
one CRLF (via the peek), a lone `'\r'` as CR. -/
def countTerminators : List Char → LeCounts
  | [] => ⟨0, 0, 0, 0, 0, 0⟩
  | '\r' :: '\n' :: rest =>
      let k := countTerminators rest
      { k with crlf := k.crlf + 1 }
  | '\r' :: rest =>
      let k := countTerminators rest
      { k with cr := k.cr + 1 }
  | '\n' :: rest =>
      let k := countTerminators rest
      { k with lf := k.lf + 1 }
  | '\u0085' :: rest =>
      let k := countTerminators rest
      { k with nel := k.nel + 1 }
  | '\u2028' :: rest =>
      let k := countTerminators rest
      { k with ls := k.ls + 1 }
  | '\u2029' :: rest =>
      let k := countTerminators rest
      { k with ps := k.ps + 1 }
  | _ :: rest => countTerminators rest

/-- One comparison step of Rust `Iterator::max_by_key`: the new element wins
on a tie, so the LAST maximal element survives the fold. -/
def leStep (acc y : Nat × LineEnding) : Nat × LineEnding :=
  if y.1 ≥ acc.1 then y else acc

/-- Rust `Iterator::max_by_key` over a non-empty list: the maximum, and the
LAST element among equal maxima. -/
def maxByKeyLast : List (Nat × LineEnding) → Option (Nat × LineEnding)
  | [] => none
  | x :: rest => some (rest.foldl leStep x)

/-- The decision half of `LineEnding::detect`, applied to the scanned
counters: zero terminators default, otherwise `max_by_key` over the fixed
candidate array `[CRLF, LF, CR, NEL, LS, PS]`. -/
def detectFromCounts (k : LeCounts) : LineEnding :=
  let total := k.crlf + k.lf + k.cr + k.nel + k.ls + k.ps
  if total == 0 then lineEndingDefault
  else
    match maxByKeyLast [(k.crlf, LineEnding.CRLF), (k.lf, LineEnding.LF),
        (k.cr, LineEnding.CR), (k.nel, LineEnding.NEL),
        (k.ls, LineEnding.LS), (k.ps, LineEnding.PS)] with
    | some x =>
        -- the source's `Some((0, _)) => default` arm, i.e. a zero maximum
        if x.1 = 0 then lineEndingDefault else x.2
    | none => LineEnding.Unknown

/-- `LineEnding::detect` (always `Ok` in the source; the `Result` wrapper is
dropped). -/
def LineEnding.detect (text : List Char) : LineEnding :=
  detectFromCounts (countTerminators text)

/-- The counter of `k` that belongs to terminator kind `le` (0 for
`Unknown`, which has no counter). -/
def LeCounts.countOf (k : LeCounts) : LineEnding → Nat
  | .CRLF => k.crlf
  | .LF => k.lf
  | .CR => k.cr
  | .NEL => k.nel
  | .LS => k.ls
  | .PS => k.ps
  | .Unknown => 0

/-- Position of a terminator kind in the candidate array of
`LineEnding::detect` (`Unknown` past the end). -/
def lePos : LineEnding → Nat
  | .CRLF => 0
  | .LF => 1
  | .CR => 2
  | .NEL => 3
  | .LS => 4
  | .PS => 5
  | .Unknown => 6

/-! ## Encoding (`content/encoding.rs`) -/

inductive Encoding where
  | UTF8
  | UTF16
  | UTF16LE
  | UTF16BE
  | LATIN1
  | WINDOWS1252
  | ASCII
deriving DecidableEq

/-- Rust `char::is_control`: the Unicode Cc category,
`U+0000..U+001F` and `U+007F..U+009F`. -/
def isControlChar (c : Char) : Bool :=
  decide (c.toNat < 0x20 ∨ (0x7F ≤ c.toNat ∧ c.toNat ≤ 0x9F))

/-- Modelled from the spec: the encoding-aware content validation called by
`Node::set_content`.  `node.rs` calls a two-argument
`validate_content(&new_content, self.encoding)` that is not in `src/`
(`validation.rs` exports a three-argument variant over bytes).  Per the spec's
validation collaborator, a Rust `String` is already valid for UTF-8 and the
control-character rule rejects raw control characters other than
`'\n'`, `'\r'`, `'\t'`; the claims exercise only UTF-8 nodes. -/
def validate_content (content : List Char) (_encoding : Encoding) : Bool :=
  content.all fun c => !(isControlChar c) || c == '\n' || c == '\r' || c == '\t'

/-! ## Node (`rope/node.rs`)

`Node { content: Rc<RefCell<String>>, encoding, line_ending,
children: Vec<Node>, length: usize }`.  The claims under verification never
clone a node and then mutate the original, so the `Rc<RefCell<_>>` content
cell is modelled by value; `&mut self` methods return the new node. -/

inductive Node where
  | mk (content : List Char) (encoding : Encoding) (line_ending : LineEnding)
      (children : List Node) (length : Nat)

def Node.content : Node → List Char
  | .mk c _ _ _ _ => c

def Node.encoding : Node → Encoding
  | .mk _ e _ _ _ => e

def Node.line_ending : Node → LineEnding
  | .mk _ _ le _ _ => le

def Node.children : Node → List Node
  | .mk _ _ _ ch _ => ch

def Node.length : Node → Nat
  | .mk _ _ _ _ len => len

/-- `Node::new`: the cached length starts as the content's byte length. -/
def Node.new (content : List Char) (encoding : Encoding)
    (line_ending : LineEnding) : Node :=
  .mk content encoding line_ending [] (byteLen content)

mutual

/-- `Node::total_length`: the cached own `length` plus the recursive totals of
the children (`children.iter().map(total_length).sum()`). -/
def Node.total_length : Node → Nat
  | .mk _ _ _ children length => length + totalLengthList children

def totalLengthList : List Node → Nat
  | [] => 0
  | n :: ns => n.total_length + totalLengthList ns

end

mutual

/-- The "true total" of claim C1: the byte length of the node's own content
plus the sum of the true totals of its children. -/
def Node.trueTotal : Node → Nat
  | .mk content _ _ children _ => byteLen content + trueTotalList children

def trueTotalList : List Node → Nat
  | [] => 0
  | n :: ns => n.trueTotal + trueTotalList ns

end

/-- `Node::add_child`: pushes the child and adds its `total_length()` to the
cached `length`. -/
def Node.add_child (n child : Node) : Node :=
  .mk n.content n.encoding n.line_ending (n.children ++ [child])
    (n.length + child.total_length)

/-- Wrapping `i64 -> usize` cast (Rust `as usize`): two's-complement
reinterpretation, i.e. the value modulo `2^64`. -/
def usizeOfI64 (x : Int) : Nat :=
  (x % (2 : Int) ^ 64).toNat

/-- `Node::set_content`: validates, stores the new content and sets the cached
length to the new byte length — then `update_parent_length` adds the signed
delta to `self.length` a second time (the source applies it to `self`, not to
any parent).  `None` models the `Err` return, which leaves the node as it
was. -/
def Node.set_content (n : Node) (new_content : List Char) : Option Node :=
  if validate_content new_content n.encoding then
    let old_length := n.length
    let new_length := byteLen new_content
    let delta : Int := (new_length : Int) - (old_length : Int)
    let final_length : Nat :=
      if delta = 0 then new_length
      else usizeOfI64 ((new_length : Int) + delta)
    some (.mk new_content n.encoding n.line_ending n.children final_length)
  else none

/-- The possible outcomes of `Node::split`. -/
inductive SplitOutcome where
  | panicked
  | rejected
  | split (self : Node) (right : Node)

/-- `Node::split(index)`: `None` (`rejected`) for `index == 0` or
`index >= self.length`; otherwise `String::split_at(index)` on the content,
which PANICS when `index` is not a UTF-8 character boundary (`panicked`); on
success the left half is stored through `set_content` and the right half
becomes a fresh child-less node with the same encoding and line ending. -/
def Node.split (n : Node) (index : Nat) : SplitOutcome :=
  if index = 0 ∨ index ≥ n.length then .rejected
  else if ¬ isCharBoundary n.content index then .panicked
  else
    match n.set_content (takeBytes n.content index) with
    | some n' => .split n' (Node.new (dropBytes n.content index)
        n.encoding n.line_ending)
    | none => .rejected

mutual

/-- `Node::balance`: returns immediately when the child count is at most 2;
otherwise recursively balances every child, then, when more than 4 children
remain, splits the child list at `count / 2`, wraps the right half in a fresh
empty-content node and appends it (`update_length` resets the cached lengths
to the own content's byte length on the way). -/
def Node.balance : Node → Node
  | .mk content encoding line_ending children length =>
      if children.length ≤ 2 then .mk content encoding line_ending children length
      else
        let cs := balanceList children
        if 4 < cs.length then
          let mid := cs.length / 2
          let right_node : Node := .mk [] encoding line_ending (cs.drop mid) 0
          .mk content encoding line_ending (cs.take mid ++ [right_node])
            (byteLen content)
        else .mk content encoding line_ending cs length

def balanceList : List Node → List Node
  | [] => []
  | n :: ns => n.balance :: balanceList ns

end

mutual

/-- The balance procedure exactly as claim C9 words it: always recursively
balance the children first (post-order), then split when the child count
exceeds 4.  Differs from the source only by the source's early return at
child count ≤ 2. -/
def balanceSpec : Node → Node
  | .mk content encoding line_ending children length =>
      let cs := balanceSpecList children
      if 4 < cs.length then
        let mid := cs.length / 2
        let right_node : Node := .mk [] encoding line_ending (cs.drop mid) 0
        .mk content encoding line_ending (cs.take mid ++ [right_node])
          (byteLen content)
      else .mk content encoding line_ending cs length

def balanceSpecList : List Node → List Node
  | [] => []
  | n :: ns => balanceSpec n :: balanceSpecList ns

end

/-! ## Node test fixtures (from the claims and the source's own tests) -/

/-- A one-character leaf node. -/
def xLeaf : Node := Node.new ['x'] Encoding.UTF8 LineEnding.LF

/-- A node built by adding 6 leaf children (claim C9 / `test_balance`). -/
def sixChildNode : Node :=
  ((((((Node.new ['R', 'o', 'o', 't'] Encoding.UTF8 LineEnding.LF).add_child
    xLeaf).add_child xLeaf).add_child xLeaf).add_child xLeaf).add_child
    xLeaf).add_child xLeaf

/-- A node with 3 leaf children. -/
def threeChildNode : Node :=
  (((Node.new ['R'] Encoding.UTF8 LineEnding.LF).add_child xLeaf).add_child
    xLeaf).add_child xLeaf

/-- A root whose single child has 6 leaf children. -/
def nestedSixNode : Node :=
  (Node.new ['R'] Encoding.UTF8 LineEnding.LF).add_child sixChildNode

/-! ## RopeIterator (`rope/iterator.rs`)

`iterator.rs` traverses a `NodeRef` (`Rc<RefCell<Node>>`) whose `Node` type
and companion `Chunk` come from `crate::core::buffer::chunk`, a module that is
not present under `src/` (the `rope/node.rs` in `src/` has a different shape:
no `NodeRef`, no `get_chunk`, `children: Vec<Node>`).  The tree type is
therefore modelled from the spec: a node exposes `children`, `is_leaf ⇔
children empty`, `get_chunk` (its own leaf chunk) and `len()` (the total
content length of the subtree).  The claims never mutate a tree while
iterating, so `Rc` sharing is modelled by value.

The unbounded `while`-loops of `advance_to_next_chunk`,
`advance_to_prev_chunk` and `seek_to_position` are modelled with explicit
fuel (`iterFuel`); every evaluation below involves only a handful of
iterations, far below the fuel, so the fuel case is never reached. -/

inductive RTree where
  | mk (chunk : Chunk) (children : List RTree)

def RTree.chunk : RTree → Chunk
  | .mk c _ => c

def RTree.children : RTree → List RTree
  | .mk _ cs => cs

/-- `Node::is_leaf`, modelled from the spec: `is_leaf ⇔ children empty`. -/
def RTree.is_leaf (t : RTree) : Bool :=
  t.children.isEmpty

mutual

/-- Modelled from the spec: `Node::len()` as used by `RopeIterator::new` for
`total_length` — the total content length of the subtree. -/
def RTree.len : RTree → Nat
  | .mk chunk children => chunk.len + rlenList children

def rlenList : List RTree → Nat
  | [] => 0
  | t :: ts => t.len + rlenList ts

end

/-- Modelled from the spec: `Chunk::char_at(i)` as used by
`RopeIterator::current_char` — the character starting at byte offset `i`
(`None` past the end or inside a multi-byte character).  The iterator drives
it with a byte cursor (`current_index` is compared against the byte length
`chunk.len()`); the claims' chunks are ASCII, where bytes and characters
coincide. -/
def charAtByte : List Char → Nat → Option Char
  | [], _ => none
  | ch :: cs, i =>
      if i = 0 then some ch
      else if i < ch.utf8Size then none
      else charAtByte cs (i - ch.utf8Size)

/-- `Chunk::char_at` (see `charAtByte`). -/
def Chunk.char_at (c : Chunk) (i : Nat) : Option Char :=
  charAtByte c.text i

/-- The traversal state of `RopeIterator` (its fields, in source order). -/
structure IterState where
  stack : List (RTree × Nat)
  reverse_stack : List (RTree × Nat)
  current_chunk : Option Chunk
  current_index : Nat
  total_length : Nat
  traversed_length : Nat
  range : Option (Nat × Nat)
  is_forward : Bool
  exhausted : Bool

/-- Fuel bound for the iterator's loops; far above the iteration counts of
every evaluation in this file. -/
def iterFuel : Nat := 1000

/-- A default tree for the (guarded, hence unreachable) out-of-bounds child
access. -/
def emptyRTree : RTree := RTree.mk (Chunk.new []) []

/-- `RopeIterator::advance_to_next_chunk`: pop frames until a leaf is found
(load its chunk, cursor 0) or the stack empties (exhausted); an interior
frame re-pushes itself with the child index advanced and then pushes the
child, so the child is popped next. -/
def advanceToNextChunk : Nat → IterState → IterState
  | 0, st => st
  | fuel + 1, st =>
      match st.stack with
      | [] =>
          { st with
            current_chunk := none, current_index := 0, exhausted := true }
      | (t, child_index) :: rest =>
          if t.is_leaf then
            { st with
              stack := rest, current_chunk := some t.chunk,
              current_index := 0 }
          else if child_index < t.children.length then
            advanceToNextChunk fuel
              { st with stack :=
                  (t.children.getD child_index emptyRTree, 0)
                    :: (t, child_index + 1) :: rest }
          else advanceToNextChunk fuel { st with stack := rest }

/-- `RopeIterator::advance_to_prev_chunk`: the backward analogue over
`reverse_stack`; a loaded leaf sets the cursor to `len - 1` (saturating). -/
def advanceToPrevChunk : Nat → IterState → IterState
  | 0, st => st
  | fuel + 1, st =>
      match st.reverse_stack with
      | [] =>
          { st with
            current_chunk := none, current_index := 0, exhausted := true }
      | (t, child_index) :: rest =>
          if t.is_leaf then
            { st with
              reverse_stack := rest, current_chunk := some t.chunk,
              current_index := t.chunk.len - 1 }
          else if 0 < child_index then
            if child_index - 1 < t.children.length then
              let child := t.children.getD (child_index - 1) emptyRTree
              let last_index :=
                if child.is_leaf then 0 else child.children.length
              advanceToPrevChunk fuel
                { st with reverse_stack :=
                    (child, last_index) :: (t, child_index - 1) :: rest }
            else
              advanceToPrevChunk fuel
                { st with reverse_stack := (t, child_index - 1) :: rest }
          else advanceToPrevChunk fuel { st with reverse_stack := rest }

/-- `RopeIterator::reset`: clears the forward stack (the iterator holds no
root to re-seed it with!), drops the loaded chunk and zeroes the cursor,
traversed length and exhausted flag.  `reverse_stack` is left as is, exactly
as in the source. -/
def IterState.reset (st : IterState) : IterState :=
  { st with
    stack := [], current_chunk := none, current_index := 0,
    traversed_length := 0, exhausted := false }

/-- The `while` loop of `RopeIterator::seek_to_position` (entered after
`reset`): replay chunk lengths until the cumulative traversed length reaches
`pos`; the final result is whether it did. -/
def seekLoop : Nat → Nat → IterState → IterState × Bool
  | 0, pos, st => (st, decide (st.traversed_length = pos))
  | fuel + 1, pos, st =>
      if st.traversed_length < pos ∧ ¬ st.exhausted then
        match st.current_chunk with
        | some chunk =>
            let chunk_len := chunk.len
            let remaining_to_pos := pos - st.traversed_length
            if remaining_to_pos < chunk_len - st.current_index then
              ({ st with
                 current_index := st.current_index + remaining_to_pos,
                 traversed_length :=
                   st.traversed_length + remaining_to_pos }, true)
            else
              let advance_amount := chunk_len - st.current_index
              seekLoop fuel pos
                (advanceToNextChunk iterFuel
                  { st with traversed_length :=
                      st.traversed_length + advance_amount })
        | none => (st, decide (st.traversed_length = pos))
      else (st, decide (st.traversed_length = pos))

/-- `RopeIterator::seek_to_position`. -/
def IterState.seek_to_position (st : IterState) (pos : Nat) :
    IterState × Bool :=
  if pos > st.total_length then (st, false)
  else seekLoop iterFuel pos st.reset

/-- `RopeIterator::within_range`. -/
def IterState.within_range (st : IterState) : Bool :=
  match st.range with
  | some r => decide (st.traversed_length ≥ r.1 ∧ st.traversed_length < r.2)
  | none => true

/-- `RopeIterator::current_char`. -/
def IterState.current_char (st : IterState) : Option Char :=
  if st.exhausted || ! st.within_range then none
  else
    match st.current_chunk with
    | none => none
    | some chunk => chunk.char_at st.current_index

/-- `RopeIterator::advance_char`: move the byte cursor one step in the active
direction, loading the next/previous chunk at a chunk edge, then apply the
range exhaustion check. -/
def IterState.advance_char (st : IterState) : IterState :=
  if st.exhausted then st
  else
    let st' :=
      match st.current_chunk with
      | some chunk =>
          if st.is_forward then
            let st1 :=
              { st with
                current_index := st.current_index + 1,
                traversed_length := st.traversed_length + 1 }
            if st1.current_index ≥ chunk.len then
              advanceToNextChunk iterFuel st1
            else st1
          else
            if st.current_index = 0 then advanceToPrevChunk iterFuel st
            else
              { st with
                current_index := st.current_index - 1,
                traversed_length := st.traversed_length - 1 }
      | none => st
    match st'.range with
    | some r =>
        if (st'.is_forward ∧ st'.traversed_length ≥ r.2)
            ∨ (¬ st'.is_forward ∧ st'.traversed_length < r.1) then
          { st' with exhausted := true }
        else st'
    | none => st'

/-- `Iterator::next` for `RopeIterator`: the current character, advancing on
success. -/
def IterState.next (st : IterState) : Option Char × IterState :=
  match st.current_char with
  | none => (none, st)
  | some ch => (some ch, st.advance_char)

/-- `RopeIterator::remaining_length`. -/
def IterState.remaining_length (st : IterState) : Nat :=
  match st.range with
  | some r => r.2 - st.traversed_length
  | none => st.total_length - st.traversed_length

/-- `RopeIterator::new`: both stacks seeded with the root, then either a seek
to the range start or a plain advance to the first chunk. -/
def ropeIteratorNew (root : RTree) (range : Option (Nat × Nat)) : IterState :=
  let st : IterState :=
    { stack := [(root, 0)], reverse_stack := [(root, 0)],
      current_chunk := none, current_index := 0, total_length := root.len,
      traversed_length := 0, range := range, is_forward := true,
      exhausted := false }
  match range with
  | some r => (st.seek_to_position r.1).1
  | none => advanceToNextChunk iterFuel st

/-- Run `next` up to `n` times, collecting the produced characters. -/
def nextN : Nat → IterState → List Char × IterState
  | 0, st => ([], st)
  | n + 1, st =>
      match st.next with
      | (none, st') => ([], st')
      | (some ch, st') =>
          let r := nextN n st'
          (ch :: r.1, r.2)

/-- The two-chunk tree of claim C2: leaves `"Hello "` and `"World"` under one
root. -/
def helloWorldTree : RTree :=
  RTree.mk (Chunk.new [])
    [RTree.mk (Chunk.new ['H', 'e', 'l', 'l', 'o', ' ']) [],
     RTree.mk (Chunk.new ['W', 'o', 'r', 'l', 'd']) []]

/-- The single-chunk tree of claim C3: one leaf `"Hello World"`. -/
def helloWorldLeaf : RTree :=
  RTree.mk (Chunk.new ['H', 'e', 'l', 'l', 'o', ' ', 'W', 'o', 'r', 'l', 'd'])
    []

/-! ## Helper lemmas -/

theorem sumLens_append (l1 l2 : List Piece) :
    sumLens (l1 ++ l2) = sumLens l1 + sumLens l2 := by
  simp [sumLens]

theorem sumLens_cons (p : Piece) (l : List Piece) :
    sumLens (p :: l) = p.len + sumLens l := by
  simp [sumLens]

theorem sumLens_take_drop (l : List Piece) (i : Nat) :
    sumLens (l.take i) + sumLens (l.drop i) = sumLens l := by
  rw [← sumLens_append, List.take_append_drop]

theorem sumLens_set (l : List Piece) (i : Nat) (x : Piece) (h : i < l.length) :
    sumLens (l.set i x) + (l.getD i ⟨0, 0, 0⟩).len = sumLens l + x.len := by
  induction l generalizing i with
  | nil => simp at h
  | cons hd tl ih =>
    cases i with
    | zero =>
      simp [sumLens_cons]
      omega
    | succ n =>
      have hn : n < tl.length := by simpa using h
      have := ih n hn
      simp only [List.set, sumLens_cons, List.getD_cons_succ]
      omega

theorem sumLens_getD_split (l : List Piece) (i : Nat) (h : i < l.length) :
    sumLens l
      = sumLens (l.take i) + (l.getD i ⟨0, 0, 0⟩).len
          + sumLens (l.drop (i + 1)) := by
  conv_lhs => rw [← List.take_append_drop i l]
  rw [sumLens_append, List.drop_eq_getElem_cons h, sumLens_cons]
  have : l.getD i ⟨0, 0, 0⟩ = l[i] := by
    simp [List.getD_eq_getElem?_getD, List.getElem?_eq_getElem h]
  rw [this]
  omega

theorem balanceList_length (l : List Node) :
    (balanceList l).length = l.length := by
  induction l with
  | nil => rfl
  | cons n ns ih => simp [balanceList, ih]

theorem bufferInv_new : BufferInv Buffer.new := by
  simp [BufferInv, Buffer.new, sumLens]

theorem bufferInv_add (b : Buffer) (p : Piece) (h : BufferInv b) :
    BufferInv (b.add_piece p) := by
  simp only [BufferInv, Buffer.add_piece, sumLens, List.map_append,
    List.sum_append, List.map_cons, List.sum_cons, List.map_nil,
    List.sum_nil] at *
  omega

theorem bufferInv_extend (b : Buffer) (ps : List Piece) (h : BufferInv b) :
    BufferInv (b.extend_pieces ps) := by
  unfold Buffer.extend_pieces
  induction ps generalizing b with
  | nil => simpa using h
  | cons hd tl ih => exact ih (b.add_piece hd) (bufferInv_add b hd h)

theorem bufferInv_step (b : Buffer) (op : BufOp) (h : BufferInv b) :
    BufferInv (b.step op) := by
  cases op with
  | add p => exact bufferInv_add b p h
  | insert i p =>
    by_cases hi : b.pieces.length < i
    · simp [Buffer.step, Buffer.insert_piece, hi]
      exact h
    · have hsplit := sumLens_take_drop b.pieces i
      simp only [Buffer.step, Buffer.insert_piece, hi, if_neg, if_false,
        Option.getD_some, BufferInv, sumLens_append, sumLens_cons] at *
      omega
  | extendPieces ps => exact bufferInv_extend b ps h
  | remove i =>
    by_cases hi : b.pieces.length ≤ i
    · simp [Buffer.step, Buffer.remove_piece, hi]
      exact h
    · have hlt : i < b.pieces.length := by omega
      have hsplit := sumLens_getD_split b.pieces i hlt
      simp only [Buffer.step, Buffer.remove_piece, hi, if_neg, if_false,
        Option.map_some', Option.getD_some, BufferInv, sumLens_append] at *
      omega
  | swap a c =>
    by_cases hb : b.pieces.length ≤ a ∨ b.pieces.length ≤ c
    · simp [Buffer.step, Buffer.swap_pieces, hb]
      exact h
    · push_neg at hb
      obtain ⟨ha, hc⟩ := hb
      have hc' : c < (b.pieces.set a (b.pieces.getD c ⟨0, 0, 0⟩)).length := by
        simpa using hc
      have e1 := sumLens_set (b.pieces.set a (b.pieces.getD c ⟨0, 0, 0⟩)) c
        (b.pieces.getD a ⟨0, 0, 0⟩) hc'
      have e2 := sumLens_set b.pieces a (b.pieces.getD c ⟨0, 0, 0⟩) ha
      have e3 : (b.pieces.set a (b.pieces.getD c ⟨0, 0, 0⟩)).getD c ⟨0, 0, 0⟩
          = b.pieces.getD c ⟨0, 0, 0⟩ := by
        by_cases hac : a = c
        · subst hac
          simp [List.getD_eq_getElem?_getD, List.getElem?_set_self ha]
        · simp [List.getD_eq_getElem?_getD, List.getElem?_set_ne hac]
      rw [e3] at e1
      have hor : ¬ (b.pieces.length ≤ a ∨ b.pieces.length ≤ c) := by omega
      simp only [Buffer.step, Buffer.swap_pieces, hor, if_neg, if_false,
        Option.getD_some, BufferInv] at *
      omega
  | truncate n =>
    by_cases hn : n < b.pieces.length
    · have hsplit := sumLens_take_drop b.pieces n
      simp only [Buffer.step, Buffer.truncate_pieces, hn, if_pos, BufferInv]
        at *
      omega
    · simp [Buffer.step, Buffer.truncate_pieces, hn]
      exact h
  | clear => simp [Buffer.step, Buffer.clear, BufferInv, sumLens]

theorem bufferInv_foldl (ops : List BufOp) (b : Buffer) (h : BufferInv b) :
    BufferInv (ops.foldl Buffer.step b) := by
  induction ops generalizing b with
  | nil => simpa using h
  | cons hd tl ih => exact ih (b.step hd) (bufferInv_step b hd h)

/-! ## Claim theorems -/

/-- C6: for every `PieceDescriptor` `d` and global index `i` with
`d.contains_global i`, `global_to_local` yields a local index, and
`local_to_global` of that index gives back exactly `i`. -/
theorem c6_descriptor_round_trip (d : PieceDescriptor) (i : Nat)
    (h : d.contains_global i = true) :
    (d.global_to_local i).bind d.local_to_global = some i := by
  obtain ⟨⟨bid, rs, re⟩, gs⟩ := d
  simp only [PieceDescriptor.contains_global, PieceDescriptor.global_end,
    PieceDescriptor.len, Piece.len, decide_eq_true_eq] at h
  obtain ⟨h1, h2⟩ := h
  simp only [PieceDescriptor.global_to_local, PieceDescriptor.local_to_global,
    PieceDescriptor.contains_global, PieceDescriptor.global_end,
    PieceDescriptor.len, Piece.len, PieceDescriptor.local_start, Piece.contains,
    decide_eq_true_eq]
  rw [if_pos (by omega)]
  simp only [Option.some_bind]
  rw [if_pos (by constructor <;> omega)]
  congr 1
  omega

/-- Witness for C6 at a concrete descriptor and index. -/
theorem c6_descriptor_round_trip_witness :
    (PieceDescriptor.mk ⟨1, 10, 20⟩ 100).contains_global 105 = true ∧
    ((PieceDescriptor.mk ⟨1, 10, 20⟩ 100).global_to_local 105).bind
      (PieceDescriptor.mk ⟨1, 10, 20⟩ 100).local_to_global = some 105 :=
  ⟨by decide, c6_descriptor_round_trip ⟨⟨1, 10, 20⟩, 100⟩ 105 (by decide)⟩

/-- C7: splitting a `Piece` at an interior index `0 < i < len` and merging the
two halves gives back the original piece (same buffer id, same byte range). -/
theorem c7_piece_split_merge_round_trip (p : Piece) (i : Nat)
    (h1 : 0 < i) (h2 : i < p.len) :
    (p.split_at i).bind (fun lr => lr.1.merge lr.2) = some p := by
  obtain ⟨bid, rs, re⟩ := p
  simp only [Piece.len] at h2
  simp only [Piece.split_at, Piece.len]
  rw [if_pos (by omega)]
  simp only [Option.some_bind, Piece.merge, Piece.can_merge]
  rw [if_pos (by simp)]
  have hmin : min rs (rs + i) = rs := by omega
  have hmax : max (rs + i) re = re := by omega
  simp [hmin, hmax]

/-- Witness for C7 at a concrete piece and interior index. -/
theorem c7_piece_split_merge_round_trip_witness :
    0 < 3 ∧ 3 < (Piece.mk 2 5 12).len ∧
    ((Piece.mk 2 5 12).split_at 3).bind (fun lr => lr.1.merge lr.2)
      = some (Piece.mk 2 5 12) :=
  ⟨by decide, by decide,
    c7_piece_split_merge_round_trip ⟨2, 5, 12⟩ 3 (by decide) (by decide)⟩

/-- C8: after any sequence of piece-list operations starting from
`Buffer::new`, the cached `total_length` equals the sum of the stored pieces'
lengths; and `insert_piece`/`remove_piece` at an out-of-bounds index fail
without mutating the buffer. -/
theorem c8_buffer_length_invariant :
    (∀ ops : List BufOp, BufferInv (ops.foldl Buffer.step Buffer.new)) ∧
    (∀ (b : Buffer) (i : Nat) (p : Piece), b.pieces.length < i →
      b.insert_piece i p = none ∧ b.step (BufOp.insert i p) = b) ∧
    (∀ (b : Buffer) (i : Nat), b.pieces.length ≤ i →
      b.remove_piece i = none ∧ b.step (BufOp.remove i) = b) := by
  refine ⟨fun ops => bufferInv_foldl ops Buffer.new bufferInv_new, ?_, ?_⟩
  · intro b i p hi
    constructor
    · simp [Buffer.insert_piece, hi]
    · simp [Buffer.step, Buffer.insert_piece, hi]
  · intro b i hi
    constructor
    · simp [Buffer.remove_piece, hi]
    · simp [Buffer.step, Buffer.remove_piece, hi]

/-- C4: every `Chunk` operation among slice, split_at, insert, insert_str and
remove whose index or range endpoint is out of bounds or off a UTF-8 character
boundary returns `none`.  The operations are pure functions of the receiver
(`&self` in the source), so the receiver is never mutated; results are built
from whole characters of the model, hence always valid UTF-8, and every
failure is the `None` return — no panic path exists in these methods. -/
theorem c4_chunk_utf8_safety (c : Chunk) (rs re idx : Nat) (ch : Char)
    (s : List Char) :
    (rs > re ∨ re > c.len ∨ isCharBoundary c.text rs = false ∨
        isCharBoundary c.text re = false →
      c.slice rs re = none) ∧
    (idx > c.len ∨ isCharBoundary c.text idx = false →
      c.split_at idx = none ∧ c.insert idx ch = none ∧
        c.insert_str idx s = none) ∧
    (idx ≥ c.len ∨ isCharBoundary c.text idx = false →
      c.remove idx = none) := by
  refine ⟨?_, ?_, ?_⟩
  · intro h
    unfold Chunk.slice
    rcases h with h | h | h | h
    · rw [if_pos (Or.inl h)]
    · rw [if_pos (Or.inr h)]
    · by_cases hb : rs > re ∨ re > c.len
      · rw [if_pos hb]
      · rw [if_neg hb, if_pos (Or.inl (by simp [h]))]
    · by_cases hb : rs > re ∨ re > c.len
      · rw [if_pos hb]
      · rw [if_neg hb, if_pos (Or.inr (by simp [h]))]
  · intro h
    have h' : idx > c.len ∨ ¬ isCharBoundary c.text idx = true := by
      rcases h with h | h
      · exact Or.inl h
      · exact Or.inr (by simp [h])
    refine ⟨?_, ?_, ?_⟩
    · unfold Chunk.split_at
      rw [if_pos h']
    · unfold Chunk.insert
      rw [if_pos h']
    · unfold Chunk.insert_str
      rw [if_pos h']
  · intro h
    have h' : idx ≥ c.len ∨ ¬ isCharBoundary c.text idx = true := by
      rcases h with h | h
      · exact Or.inl h
      · exact Or.inr (by simp [h])
    unfold Chunk.remove
    rw [if_pos h']

/-- Witness for C4 at the chunk `"héllo"` and byte index 2, which falls inside
the two-byte character `'é'`. -/
theorem c4_chunk_utf8_safety_witness :
    isCharBoundary (Chunk.new ['h', 'é', 'l', 'l', 'o']).text 2 = false ∧
    (Chunk.new ['h', 'é', 'l', 'l', 'o']).slice 0 2 = none ∧
    (Chunk.new ['h', 'é', 'l', 'l', 'o']).split_at 2 = none ∧
    (Chunk.new ['h', 'é', 'l', 'l', 'o']).insert 2 'x' = none ∧
    (Chunk.new ['h', 'é', 'l', 'l', 'o']).insert_str 2 ['x'] = none ∧
    (Chunk.new ['h', 'é', 'l', 'l', 'o']).remove 2 = none := by
  have hb : isCharBoundary (Chunk.new ['h', 'é', 'l', 'l', 'o']).text 2
      = false := by decide
  have h := c4_chunk_utf8_safety (Chunk.new ['h', 'é', 'l', 'l', 'o']) 0 2 2
    'x' ['x']
  exact ⟨hb, h.1 (Or.inr (Or.inr (Or.inr hb))),
    (h.2.1 (Or.inr hb)).1, (h.2.1 (Or.inr hb)).2.1, (h.2.1 (Or.inr hb)).2.2,
    h.2.2 (Or.inr hb)⟩

theorem leStep_pos (acc y : Nat × LineEnding) (h : acc.1 ≤ y.1) :
    leStep acc y = y := by
  simp [leStep, h]

theorem leStep_neg (acc y : Nat × LineEnding) (h : ¬ acc.1 ≤ y.1) :
    leStep acc y = acc := by
  simp only [leStep, ge_iff_le, if_neg h]

theorem foldl_leStep_mem (l : List (Nat × LineEnding)) (init : Nat × LineEnding) :
    l.foldl leStep init = init ∨ l.foldl leStep init ∈ l := by
  induction l generalizing init with
  | nil => exact Or.inl rfl
  | cons z l ih =>
    simp only [List.foldl]
    by_cases hz : init.1 ≤ z.1
    · rw [leStep_pos init z hz]
      rcases ih z with h | h
      · exact Or.inr (by simp [h])
      · exact Or.inr (by simp [h])
    · rw [leStep_neg init z hz]
      rcases ih init with h | h
      · exact Or.inl h
      · exact Or.inr (by simp [h])

theorem foldl_leStep_ge_init (l : List (Nat × LineEnding))
    (init : Nat × LineEnding) :
    init.1 ≤ (l.foldl leStep init).1 := by
  induction l generalizing init with
  | nil => simp [List.foldl]
  | cons z l ih =>
    have h1 : init.1 ≤ (leStep init z).1 := by
      by_cases hz : init.1 ≤ z.1
      · rw [leStep_pos init z hz]
        omega
      · rw [leStep_neg init z hz]
    have h2 := ih (leStep init z)
    simp only [List.foldl]
    omega

theorem foldl_leStep_ge_mem (l : List (Nat × LineEnding))
    (init : Nat × LineEnding) (y : Nat × LineEnding) (hy : y ∈ l) :
    y.1 ≤ (l.foldl leStep init).1 := by
  induction l generalizing init with
  | nil => simp at hy
  | cons z l ih =>
    simp only [List.foldl]
    rcases List.mem_cons.mp hy with rfl | h
    · have h1 : y.1 ≤ (leStep init y).1 := by
        by_cases hz : init.1 ≤ y.1
        · rw [leStep_pos init y hz]
        · rw [leStep_neg init y hz]
          omega
      have h2 := foldl_leStep_ge_init l (leStep init y)
      omega
    · exact ih (leStep init z) h

theorem foldl_leStep_last_max (l : List (Nat × LineEnding))
    (init : Nat × LineEnding) (l1 l2 : List (Nat × LineEnding))
    (y : Nat × LineEnding) (hdec : l = l1 ++ y :: l2) :
    l.foldl leStep init ∈ y :: l2 ∨ y.1 < (l.foldl leStep init).1 := by
  induction l generalizing init l1 with
  | nil => simp at hdec
  | cons z l ih =>
    cases l1 with
    | nil =>
      simp only [List.nil_append, List.cons.injEq] at hdec
      obtain ⟨h1, h2⟩ := hdec
      subst h1
      subst h2
      simp only [List.foldl]
      by_cases hz : init.1 ≤ z.1
      · rw [leStep_pos init z hz]
        rcases foldl_leStep_mem l z with h | h
        · exact Or.inl (by simp [h])
        · exact Or.inl (by simp [h])
      · rw [leStep_neg init z hz]
        rcases foldl_leStep_mem l init with h | h
        · rw [h]
          exact Or.inr (by omega)
        · exact Or.inl (by simp [h])
    | cons w l1 =>
      simp only [List.cons_append, List.cons.injEq] at hdec
      obtain ⟨h1, h2⟩ := hdec
      subst h1
      simp only [List.foldl]
      exact ih (leStep init z) l1 h2

/-- The decision rule of `LineEnding::detect` on non-zero counters: the
returned kind has a maximal counter, and among all kinds whose counter equals
the maximum it is the one occurring last in the candidate order
CRLF, LF, CR, NEL, LS, PS (Rust `max_by_key` keeps the last maximum). -/
theorem detectFromCounts_spec (k : LeCounts) (le : LineEnding)
    (hle : le ≠ LineEnding.Unknown)
    (hk : k.crlf + k.lf + k.cr + k.nel + k.ls + k.ps ≠ 0) :
    k.countOf le ≤ k.countOf (detectFromCounts k) ∧
      (k.countOf le = k.countOf (detectFromCounts k) →
        lePos le ≤ lePos (detectFromCounts k)) := by
  obtain ⟨a, b, c, d, e, f⟩ := k
  simp only at hk
  have hmem := foldl_leStep_mem
    [(b, LineEnding.LF), (c, LineEnding.CR), (d, LineEnding.NEL),
     (e, LineEnding.LS), (f, LineEnding.PS)] (a, LineEnding.CRLF)
  have hga := foldl_leStep_ge_init
    [(b, LineEnding.LF), (c, LineEnding.CR), (d, LineEnding.NEL),
     (e, LineEnding.LS), (f, LineEnding.PS)] (a, LineEnding.CRLF)
  have hgb := foldl_leStep_ge_mem
    [(b, LineEnding.LF), (c, LineEnding.CR), (d, LineEnding.NEL),
     (e, LineEnding.LS), (f, LineEnding.PS)] (a, LineEnding.CRLF)
    (b, LineEnding.LF) (by simp)
  have hgc := foldl_leStep_ge_mem
    [(b, LineEnding.LF), (c, LineEnding.CR), (d, LineEnding.NEL),
     (e, LineEnding.LS), (f, LineEnding.PS)] (a, LineEnding.CRLF)
    (c, LineEnding.CR) (by simp)
  have hgd := foldl_leStep_ge_mem
    [(b, LineEnding.LF), (c, LineEnding.CR), (d, LineEnding.NEL),
     (e, LineEnding.LS), (f, LineEnding.PS)] (a, LineEnding.CRLF)
    (d, LineEnding.NEL) (by simp)
  have hge := foldl_leStep_ge_mem
    [(b, LineEnding.LF), (c, LineEnding.CR), (d, LineEnding.NEL),
     (e, LineEnding.LS), (f, LineEnding.PS)] (a, LineEnding.CRLF)
    (e, LineEnding.LS) (by simp)
  have hgf := foldl_leStep_ge_mem
    [(b, LineEnding.LF), (c, LineEnding.CR), (d, LineEnding.NEL),
     (e, LineEnding.LS), (f, LineEnding.PS)] (a, LineEnding.CRLF)
    (f, LineEnding.PS) (by simp)
  have hlb := foldl_leStep_last_max
    [(b, LineEnding.LF), (c, LineEnding.CR), (d, LineEnding.NEL),
     (e, LineEnding.LS), (f, LineEnding.PS)] (a, LineEnding.CRLF)
    [] [(c, LineEnding.CR), (d, LineEnding.NEL), (e, LineEnding.LS),
     (f, LineEnding.PS)] (b, LineEnding.LF) rfl
  have hlc := foldl_leStep_last_max
    [(b, LineEnding.LF), (c, LineEnding.CR), (d, LineEnding.NEL),
     (e, LineEnding.LS), (f, LineEnding.PS)] (a, LineEnding.CRLF)
    [(b, LineEnding.LF)] [(d, LineEnding.NEL), (e, LineEnding.LS),
     (f, LineEnding.PS)] (c, LineEnding.CR) rfl
  have hld := foldl_leStep_last_max
    [(b, LineEnding.LF), (c, LineEnding.CR), (d, LineEnding.NEL),
     (e, LineEnding.LS), (f, LineEnding.PS)] (a, LineEnding.CRLF)
    [(b, LineEnding.LF), (c, LineEnding.CR)] [(e, LineEnding.LS),
     (f, LineEnding.PS)] (d, LineEnding.NEL) rfl
  have hle2 := foldl_leStep_last_max
    [(b, LineEnding.LF), (c, LineEnding.CR), (d, LineEnding.NEL),
     (e, LineEnding.LS), (f, LineEnding.PS)] (a, LineEnding.CRLF)
    [(b, LineEnding.LF), (c, LineEnding.CR), (d, LineEnding.NEL)]
    [(f, LineEnding.PS)] (e, LineEnding.LS) rfl
  have hlf := foldl_leStep_last_max
    [(b, LineEnding.LF), (c, LineEnding.CR), (d, LineEnding.NEL),
     (e, LineEnding.LS), (f, LineEnding.PS)] (a, LineEnding.CRLF)
    [(b, LineEnding.LF), (c, LineEnding.CR), (d, LineEnding.NEL),
     (e, LineEnding.LS)] [] (f, LineEnding.PS) rfl
  have hdet : detectFromCounts ⟨a, b, c, d, e, f⟩
      = (if ([(b, LineEnding.LF), (c, LineEnding.CR), (d, LineEnding.NEL),
              (e, LineEnding.LS), (f, LineEnding.PS)].foldl leStep
              (a, LineEnding.CRLF)).1 = 0
         then lineEndingDefault
         else ([(b, LineEnding.LF), (c, LineEnding.CR), (d, LineEnding.NEL),
              (e, LineEnding.LS), (f, LineEnding.PS)].foldl leStep
              (a, LineEnding.CRLF)).2) := by
    simp only [detectFromCounts, maxByKeyLast]
    rw [if_neg (by simpa using hk)]
  generalize hgen : [(b, LineEnding.LF), (c, LineEnding.CR),
      (d, LineEnding.NEL), (e, LineEnding.LS),
      (f, LineEnding.PS)].foldl leStep (a, LineEnding.CRLF) = r
    at hmem hga hgb hgc hgd hge hgf hlb hlc hld hle2 hlf hdet
  dsimp only at hga hgb hgc hgd hge hgf
  rw [if_neg (by omega)] at hdet
  simp only [List.mem_cons, List.not_mem_nil, or_false] at hmem
  cases le
  case Unknown => exact absurd rfl hle
  all_goals
    rcases hmem with h | h | h | h | h | h <;>
      (rw [hdet, h]
       rw [h] at hlb hlc hld hle2 hlf hga hgb hgc hgd hge hgf
       dsimp only at hga hgb hgc hgd hge hgf ⊢
       simp only [LeCounts.countOf, lePos]
       simp at hlb hlc hld hle2 hlf
       omega)

/-- Witness for C8: a concrete operation sequence keeps the invariant, and
concrete out-of-bounds insert/remove calls fail without mutation. -/
theorem c8_buffer_length_invariant_witness :
    BufferInv
      ([BufOp.add ⟨1, 0, 5⟩, BufOp.insert 1 ⟨2, 3, 10⟩, BufOp.swap 0 1,
        BufOp.extendPieces [⟨3, 0, 2⟩], BufOp.remove 0,
        BufOp.truncate 1].foldl Buffer.step Buffer.new) ∧
    ((Buffer.new.add_piece ⟨1, 0, 5⟩).pieces.length < 7 ∧
      (Buffer.new.add_piece ⟨1, 0, 5⟩).insert_piece 7 ⟨1, 0, 1⟩ = none ∧
      (Buffer.new.add_piece ⟨1, 0, 5⟩).step (BufOp.insert 7 ⟨1, 0, 1⟩)
        = Buffer.new.add_piece ⟨1, 0, 5⟩) ∧
    ((Buffer.new.add_piece ⟨1, 0, 5⟩).pieces.length ≤ 4 ∧
      (Buffer.new.add_piece ⟨1, 0, 5⟩).remove_piece 4 = none ∧
      (Buffer.new.add_piece ⟨1, 0, 5⟩).step (BufOp.remove 4)
        = Buffer.new.add_piece ⟨1, 0, 5⟩) :=
  ⟨c8_buffer_length_invariant.1 _,
   ⟨by decide, c8_buffer_length_invariant.2.1 _ 7 _ (by decide)⟩,
   ⟨by decide, c8_buffer_length_invariant.2.2 _ 4 (by decide)⟩⟩

/-- C10 counterexample: on the text `"\r\u{0085}"` (one CR and one NEL — a
tie) `detect` returns NEL, which is not the platform default under any cfg
branch of the source (`LF` off Windows, `CRLF` on Windows); the claim that
ties default to the platform default is false. -/
theorem c10_detect_tie_counterexample :
    LineEnding.detect ['\r', '\u0085'] = LineEnding.NEL ∧
    LineEnding.NEL ≠ lineEndingDefault ∧
    LineEnding.NEL ≠ LineEnding.LF ∧ LineEnding.NEL ≠ LineEnding.CRLF := by
  decide

/-- C10 (amended): `detect` counts each `"\r\n"` pair once as CRLF (so the
claim's example `"a\nb\r\nc\r\nd"` yields CRLF, 2 beating 1); zero observed
terminators default to the platform default; and on any text with at least
one terminator the returned kind has a maximal count — but a tie is resolved
in favour of the kind occurring LAST in the fixed candidate order
CRLF, LF, CR, NEL, LS, PS, not the platform default. -/
theorem c10_line_ending_detection_majority :
    LineEnding.detect
        ['a', '\n', 'b', '\r', '\n', 'c', '\r', '\n', 'd'] = LineEnding.CRLF ∧
    (∀ text : List Char,
      (countTerminators text).crlf + (countTerminators text).lf
        + (countTerminators text).cr + (countTerminators text).nel
        + (countTerminators text).ls + (countTerminators text).ps = 0 →
      LineEnding.detect text = lineEndingDefault) ∧
    (∀ (text : List Char) (le : LineEnding), le ≠ LineEnding.Unknown →
      (countTerminators text).crlf + (countTerminators text).lf
        + (countTerminators text).cr + (countTerminators text).nel
        + (countTerminators text).ls + (countTerminators text).ps ≠ 0 →
      (countTerminators text).countOf le
          ≤ (countTerminators text).countOf (LineEnding.detect text) ∧
        ((countTerminators text).countOf le
            = (countTerminators text).countOf (LineEnding.detect text) →
          lePos le ≤ lePos (LineEnding.detect text))) := by
  refine ⟨by decide, ?_, ?_⟩
  · intro text h
    simp only [LineEnding.detect, detectFromCounts]
    rw [if_pos (by simpa using h)]
  · intro text le hle hk
    exact detectFromCounts_spec (countTerminators text) le hle hk

/-- Witness for C10 (amended) at concrete texts: a terminator-free text
defaults, and on the tie `"\r\u{0085}"` the returned kind NEL has a maximal
count and the tying CR sits earlier in the candidate order. -/
theorem c10_line_ending_detection_majority_witness :
    LineEnding.detect ['x'] = lineEndingDefault ∧
    ((countTerminators ['\r', '\u0085']).countOf LineEnding.CR
        ≤ (countTerminators ['\r', '\u0085']).countOf
            (LineEnding.detect ['\r', '\u0085']) ∧
      ((countTerminators ['\r', '\u0085']).countOf LineEnding.CR
          = (countTerminators ['\r', '\u0085']).countOf
              (LineEnding.detect ['\r', '\u0085']) →
        lePos LineEnding.CR ≤ lePos (LineEnding.detect ['\r', '\u0085']))) :=
  ⟨c10_line_ending_detection_majority.2.1 ['x'] (by decide),
   c10_line_ending_detection_majority.2.2 ['\r', '\u0085'] LineEnding.CR
     (by decide) (by decide)⟩

/-- C2: the unrestricted-iteration part of the claim holds — over the tree
with leaf chunks `"Hello "` and `"World"` the iterator yields exactly
`H,e,l,l,o, ,W,o,r,l,d`, reports `remaining_length() = 11` initially and `0`
at exhaustion, and a further `next()` yields nothing.  The seek part is a
code bug: `reset()` clears the traversal stack but the iterator stores no
root to re-seed it with, so the replay loop of `seek_to_position` finds
`current_chunk == None` immediately and can never traverse —
`seek_to_position(6)` returns `false` (the claim says `true`) and leaves the
stack empty, and the following `next()` yields nothing instead of `'W'`.
(Hence `seek_to_position(pos)` returns `true` only for `pos = 0`.) -/
theorem c2_iterator_coverage_code_bug :
    (ropeIteratorNew helloWorldTree none).remaining_length = 11 ∧
    (nextN 11 (ropeIteratorNew helloWorldTree none)).1
      = ['H', 'e', 'l', 'l', 'o', ' ', 'W', 'o', 'r', 'l', 'd'] ∧
    (nextN 11 (ropeIteratorNew helloWorldTree none)).2.remaining_length
      = 0 ∧
    (nextN 11 (ropeIteratorNew helloWorldTree none)).2.next.1 = none ∧
    ((ropeIteratorNew helloWorldTree none).seek_to_position 6).2 = false ∧
    ((ropeIteratorNew helloWorldTree none).seek_to_position 6).1.next.1
      = none ∧
    ((ropeIteratorNew helloWorldTree none).seek_to_position 6).1.stack
      = [] ∧
    ((ropeIteratorNew helloWorldTree none).seek_to_position 0).2 = true :=
  ⟨rfl, rfl, rfl, rfl, rfl, rfl, rfl, rfl⟩

/-- C3 is a code bug: constructing a `RopeIterator` with a range calls
`seek_to_position(range.start)`, whose `reset()` empties the traversal stack
with no root left to re-seed it, so the restricted iterator over
`"Hello World"` with range `[2,5)` never loads a chunk and yields NO
characters at all — not `'l','l','o'` as the claim (and the spec) state. -/
theorem c3_range_restriction_code_bug :
    (ropeIteratorNew helloWorldLeaf (some (2, 5))).next.1 = none ∧
    (nextN 5 (ropeIteratorNew helloWorldLeaf (some (2, 5)))).1 = [] ∧
    (ropeIteratorNew helloWorldLeaf (some (2, 5))).current_chunk = none ∧
    (ropeIteratorNew helloWorldLeaf (some (2, 5))).stack = [] ∧
    (ropeIteratorNew helloWorldLeaf (some (2, 5))).exhausted = false :=
  ⟨rfl, rfl, rfl, rfl, rfl⟩

/-- C1 is a code bug: `add_child` adds the child's `total_length()` into the
parent's cached `length`, but `total_length()` adds the children's totals
again, so the cache double-counts.  For a node with content `"Parent"` and
one child `"Child"` the source's own test `test_child_operations` asserts
`total_length() == 11`, yet the code yields 16 (the true total is 11).
Moreover `set_content` applies the length delta to `self.length` a second
time through the mis-targeted `update_parent_length`, so even without
children the cache goes wrong: setting `"Hello"` (5 bytes) to `"Hi"`
(2 bytes) leaves the cached length at `2 + (2 - 5)` wrapped to
`2^64 - 1`. -/
theorem c1_total_length_code_bug :
    ((Node.new ['P', 'a', 'r', 'e', 'n', 't'] Encoding.UTF8
        LineEnding.LF).add_child
      (Node.new ['C', 'h', 'i', 'l', 'd'] Encoding.UTF8
        LineEnding.LF)).total_length = 16 ∧
    ((Node.new ['P', 'a', 'r', 'e', 'n', 't'] Encoding.UTF8
        LineEnding.LF).add_child
      (Node.new ['C', 'h', 'i', 'l', 'd'] Encoding.UTF8
        LineEnding.LF)).trueTotal = 11 ∧
    ((Node.new ['H', 'e', 'l', 'l', 'o'] Encoding.UTF8
        LineEnding.LF).set_content ['H', 'i']).map Node.length
      = some (2 ^ 64 - 1) := by
  refine ⟨rfl, rfl, ?_⟩
  decide

/-- C5 is a code bug for the boundary part: `Node::split` checks only
`index == 0 || index >= self.length` and then calls `String::split_at`,
which PANICS (rather than returning `None`) when the index is not a UTF-8
character boundary — on `"héllo"` at byte index 2 (inside `'é'`) the call
aborts.  The rest of the claim holds: degenerate indices are rejected, and on
success bytes `[0, index)` stay in self while the returned node has no
children, the same encoding and line ending, and bytes `[index, len)` (the
cached `length` of self is corrupted by the C1 `set_content` slip, here
`7 + (7 - 13) = 1`, but the content is as the claim says). -/
theorem c5_node_split_boundary_code_bug :
    (Node.new ['h', 'é', 'l', 'l', 'o'] Encoding.UTF8 LineEnding.LF).split 0
      = SplitOutcome.rejected ∧
    (Node.new ['h', 'é', 'l', 'l', 'o'] Encoding.UTF8 LineEnding.LF).split 6
      = SplitOutcome.rejected ∧
    (Node.new ['h', 'é', 'l', 'l', 'o'] Encoding.UTF8 LineEnding.LF).split 7
      = SplitOutcome.rejected ∧
    (Node.new ['h', 'é', 'l', 'l', 'o'] Encoding.UTF8 LineEnding.LF).split 2
      = SplitOutcome.panicked ∧
    (Node.new ['H', 'e', 'l', 'l', 'o', ',', ' ', 'w', 'o', 'r', 'l', 'd', '!']
        Encoding.UTF8 LineEnding.LF).split 7
      = SplitOutcome.split
          (Node.mk ['H', 'e', 'l', 'l', 'o', ',', ' '] Encoding.UTF8
            LineEnding.LF [] 1)
          (Node.new ['w', 'o', 'r', 'l', 'd', '!'] Encoding.UTF8
            LineEnding.LF) :=
  ⟨rfl, rfl, rfl, rfl, rfl⟩

/-- C9 counterexample: `balance()` returns immediately when a node has at
most 2 children, so it does NOT recursively balance the children then — on a
root whose single child has 6 leaf children, the code leaves the child with
6 children, while the claim's described algorithm (post-order recursion,
then split when the count exceeds 4, here `balanceSpec`) reduces it to 4. -/
theorem c9_balance_recursion_counterexample :
    (Node.balance nestedSixNode).children.map (fun c => c.children.length)
      = [6] ∧
    (balanceSpec nestedSixNode).children.map (fun c => c.children.length)
      = [4] ∧
    Node.balance nestedSixNode ≠ balanceSpec nestedSixNode := by
  refine ⟨rfl, rfl, fun h => ?_⟩
  have h6 : (Node.balance nestedSixNode).children.map
      (fun c => c.children.length) = [6] := rfl
  have h4 : (balanceSpec nestedSixNode).children.map
      (fun c => c.children.length) = [4] := rfl
  rw [h] at h6
  rw [h6] at h4
  simp at h4

/-- C9 (amended): a node built by adding 6 leaf children has exactly 4
children after `balance()`; in general `balance()` returns the node UNCHANGED
(no recursion into children) when it has at most 2 children; when it has more
than 2, it first recursively balances the children (post-order), and then, if
more than 4 children remain, splits the child list at `count / 2` and appends
a new empty-content sibling wrapping the right half (resetting the cached
lengths to the own content's byte length), otherwise keeps the balanced
children as they are. -/
theorem c9_node_balance_amended :
    sixChildNode.balance.children.length = 4 ∧
    (∀ n : Node, n.children.length ≤ 2 → n.balance = n) ∧
    (∀ n : Node, 4 < n.children.length →
      n.balance = Node.mk n.content n.encoding n.line_ending
        ((balanceList n.children).take (n.children.length / 2)
          ++ [Node.mk [] n.encoding n.line_ending
                ((balanceList n.children).drop (n.children.length / 2)) 0])
        (byteLen n.content)) ∧
    (∀ n : Node, 2 < n.children.length → n.children.length ≤ 4 →
      n.balance = Node.mk n.content n.encoding n.line_ending
        (balanceList n.children) n.length) := by
  refine ⟨rfl, ?_, ?_, ?_⟩
  · intro n h
    cases n with
    | mk content encoding line_ending children length =>
      simp only [Node.children] at h
      simp only [Node.balance, if_pos h]
  · intro n h
    cases n with
    | mk content encoding line_ending children length =>
      simp only [Node.children, Node.content, Node.encoding, Node.line_ending]
        at h ⊢
      simp only [Node.balance, balanceList_length, if_neg (by omega : ¬ children.length ≤ 2),
        if_pos h]
  · intro n h2 h4
    cases n with
    | mk content encoding line_ending children length =>
      simp only [Node.children, Node.content, Node.encoding, Node.line_ending,
        Node.length] at h2 h4 ⊢
      simp only [Node.balance, balanceList_length,
        if_neg (by omega : ¬ children.length ≤ 2),
        if_neg (by omega : ¬ 4 < children.length)]

/-- Witness for C9 (amended) at concrete nodes with 1, 6 and 3 children. -/
theorem c9_node_balance_amended_witness :
    (xLeaf.children.length ≤ 2 ∧ xLeaf.balance = xLeaf) ∧
    (4 < sixChildNode.children.length ∧
      sixChildNode.balance = Node.mk sixChildNode.content
        sixChildNode.encoding sixChildNode.line_ending
        ((balanceList sixChildNode.children).take
            (sixChildNode.children.length / 2)
          ++ [Node.mk [] sixChildNode.encoding sixChildNode.line_ending
                ((balanceList sixChildNode.children).drop
                  (sixChildNode.children.length / 2)) 0])
        (byteLen sixChildNode.content)) ∧
    (2 < threeChildNode.children.length ∧ threeChildNode.children.length ≤ 4 ∧
      threeChildNode.balance = Node.mk threeChildNode.content
        threeChildNode.encoding threeChildNode.line_ending
        (balanceList threeChildNode.children) threeChildNode.length) :=
  ⟨⟨by decide, c9_node_balance_amended.2.1 xLeaf (by decide)⟩,
   ⟨by decide, c9_node_balance_amended.2.2.1 sixChildNode (by decide)⟩,
   ⟨by decide, by decide,
     c9_node_balance_amended.2.2.2 threeChildNode (by decide) (by decide)⟩⟩

end Kaudo
